import Mathlib

/-!
Verification of the Merkle-tree construction in `src/src/main.rs`.

The embedding is shallow: every Rust function is translated to a Lean
function over `Nat` (bytes and 32-bit words, with explicit `% 2^32`
where the Rust arithmetic wraps), `List` (for `Vec` and slices) and
`String`.  The SHA-256 primitive used through the `sha2` crate is
implemented concretely (FIPS 180-4), so every definition is executable
and claims can be checked on concrete inputs by `decide` / `rfl`.

Everything lives in the namespace `Merkle` because Lean core already
has a class named like the Rust trait.
-/

set_option maxRecDepth 400000

namespace Merkle

/-! ### Bytes of a Rust `&str` (`input.as_bytes()` is the UTF-8 encoding) -/

/-- UTF-8 encoding of a single Unicode scalar value, as a list of byte
values.  Models what Rust `str::as_bytes` yields per character. -/
def utf8EncodeCharNat (n : Nat) : List Nat :=
  if n < 128 then [n]
  else if n < 2048 then [192 ||| (n >>> 6), 128 ||| (n &&& 63)]
  else if n < 65536 then
    [224 ||| (n >>> 12), 128 ||| ((n >>> 6) &&& 63), 128 ||| (n &&& 63)]
  else
    [240 ||| (n >>> 18), 128 ||| ((n >>> 12) &&& 63),
     128 ||| ((n >>> 6) &&& 63), 128 ||| (n &&& 63)]

/-- The byte sequence of a string: UTF-8 encoding of its characters,
the model of Rust `input.as_bytes()`. -/
def strBytes (s : String) : List Nat :=
  (s.data.map (fun c => utf8EncodeCharNat c.toNat)).flatten

/-! ### SHA-256 (the `sha2` crate's `Sha256`, FIPS 180-4) -/

/-- Right rotation of a 32-bit word. -/
def rotr32 (n x : Nat) : Nat :=
  ((x >>> n) ||| (x <<< (32 - n))) % 4294967296

/-- SHA-256 small sigma 0 (message schedule). -/
def smallSigma0 (x : Nat) : Nat :=
  (rotr32 7 x) ^^^ (rotr32 18 x) ^^^ (x >>> 3)

/-- SHA-256 small sigma 1 (message schedule). -/
def smallSigma1 (x : Nat) : Nat :=
  (rotr32 17 x) ^^^ (rotr32 19 x) ^^^ (x >>> 10)

/-- SHA-256 big Sigma 0 (compression). -/
def bigSigma0 (x : Nat) : Nat :=
  (rotr32 2 x) ^^^ (rotr32 13 x) ^^^ (rotr32 22 x)

/-- SHA-256 big Sigma 1 (compression). -/
def bigSigma1 (x : Nat) : Nat :=
  (rotr32 6 x) ^^^ (rotr32 11 x) ^^^ (rotr32 25 x)

/-- The 64 SHA-256 round constants (decimal rendering of the standard
table). -/
def shaK : List Nat :=
  [1116352408, 1899447441, 3049323471, 3921009573, 961987163, 1508970993,
   2453635748, 2870763221, 3624381080, 310598401, 607225278, 1426881987,
   1925078388, 2162078206, 2614888103, 3248222580, 3835390401, 4022224774,
   264347078, 604807628, 770255983, 1249150122, 1555081692, 1996064986,
   2554220882, 2821834349, 2952996808, 3210313671, 3336571891, 3584528711,
   113926993, 338241895, 666307205, 773529912, 1294757372, 1396182291,
   1695183700, 1986661051, 2177026350, 2456956037, 2730485921, 2820302411,
   3259730800, 3345764771, 3516065817, 3600352804, 4094571909, 275423344,
   430227734, 506948616, 659060556, 883997877, 958139571, 1322822218,
   1537002063, 1747873779, 1955562222, 2024104815, 2227730452, 2361852424,
   2428436474, 2756734187, 3204031479, 3329325298]

/-- The 8 SHA-256 initial hash values (decimal rendering of the
standard table). -/
def shaH0 : List Nat :=
  [1779033703, 3144134277, 1013904242, 2773480762,
   1359893119, 2600822924, 528734635, 1541459225]

/-- Group bytes into big-endian 32-bit words. -/
def bytesToWords : List Nat → List Nat
  | a :: b :: c :: d :: rest =>
      (((a * 256 + b) * 256 + c) * 256 + d) :: bytesToWords rest
  | _ => []

/-- Extend the 16 words of a block to the 64-entry message schedule. -/
def extendSchedule (w16 : List Nat) : List Nat :=
  (List.range 48).foldl (fun w _ =>
    let i := w.length
    w.concat ((w.getD (i - 16) 0 + smallSigma0 (w.getD (i - 15) 0) +
               w.getD (i - 7) 0 + smallSigma1 (w.getD (i - 2) 0)) % 4294967296)) w16

/-- One round of the SHA-256 compression function on the 8-word state. -/
def compressStep (k wi : Nat) (st : List Nat) : List Nat :=
  match st with
  | [a, b, c, d, e, f, g, h] =>
      let ch := (e &&& f) ^^^ ((e ^^^ 4294967295) &&& g)
      let t1 := (h + bigSigma1 e + ch + k + wi) % 4294967296
      let maj := (a &&& b) ^^^ (a &&& c) ^^^ (b &&& c)
      let t2 := (bigSigma0 a + maj) % 4294967296
      [(t1 + t2) % 4294967296, a, b, c, (d + t1) % 4294967296, e, f, g]
  | other => other

/-- Compress one 64-byte block into the running 8-word state. -/
def compressBlock (h : List Nat) (block : List Nat) : List Nat :=
  let w := extendSchedule (bytesToWords block)
  let st := (List.range 64).foldl
    (fun st i => compressStep (shaK.getD i 0) (w.getD i 0) st) h
  (List.zip h st).map (fun p => (p.1 + p.2) % 4294967296)

/-- The 8-byte big-endian encoding of the 64-bit message bit length. -/
def lenBytes64 (n : Nat) : List Nat :=
  (List.range 8).map (fun i => (n >>> ((7 - i) * 8)) &&& 255)

/-- SHA-256 padding: a 0x80 byte, zeros, then the bit length, so the
total length is a multiple of 64 bytes. -/
def padMessage (msg : List Nat) : List Nat :=
  msg ++ [128] ++ List.replicate ((119 - msg.length % 64) % 64) 0 ++
    lenBytes64 (msg.length * 8)

/-- Accumulate bytes (in reverse) into consecutive 64-byte blocks. -/
def toBlocksAux (cur : List Nat) : List Nat → List (List Nat)
  | [] => if cur = [] then [] else [cur.reverse]
  | b :: rest =>
      if cur.length = 63 then (b :: cur).reverse :: toBlocksAux [] rest
      else toBlocksAux (b :: cur) rest

/-- Split a byte sequence into consecutive 64-byte blocks. -/
def toBlocks (bs : List Nat) : List (List Nat) :=
  toBlocksAux [] bs

/-- SHA-256 of a byte sequence, as the 32 bytes of the digest. -/
def sha256Bytes (msg : List Nat) : List Nat :=
  let final := (toBlocks (padMessage msg)).foldl compressBlock shaH0
  final.flatMap (fun w => [(w >>> 24) &&& 255, (w >>> 16) &&& 255, (w >>> 8) &&& 255, w &&& 255])

/-- A lowercase hexadecimal digit. -/
def hexDigit (n : Nat) : Char :=
  "0123456789abcdef".toList.getD n '0'

/-- Lowercase-hex rendering of a byte sequence (two digits per byte),
the model of Rust `format` with the `x` specifier on the digest. -/
def bytesToHex (bs : List Nat) : String :=
  String.mk (bs.flatMap (fun b => [hexDigit (b / 16), hexDigit (b % 16)]))

/-! ### The source's helpers (main.rs lines 34-58) -/

/-- `hash_data` from main.rs: SHA-256 of the UTF-8 bytes of the input,
rendered as a 64-character lowercase-hex string. -/
def hash_data (input : String) : String :=
  bytesToHex (sha256Bytes (strBytes input))

/-- `hash_pair` from main.rs: concatenate the two fingerprints (left
then right, no separator) and hash the concatenation via `hash_data`. -/
def hash_pair (left right : String) : String :=
  hash_data (left ++ right)

/-! ### The `Hashable` trait and its `String` impl (main.rs lines 7-16) -/

/-- The `Hashable` trait: a contract for types that can be turned into
a fingerprint.  (Namespaced because Lean core has a class of this name.) -/
class Hashable (T : Type) where
  to_hash : T → String

/-- The `impl Hashable for String` of main.rs: `to_hash` is `hash_data`. -/
instance : Hashable String :=
  ⟨hash_data⟩

/-! ### The tree (main.rs lines 25-113) -/

/-- `MerkleTree<T>`: the layer stack; `layers[0]` is the leaf layer,
the last layer is the root layer.  The type parameter models the
`PhantomData<T>` marker (no `T` value is stored). -/
structure MerkleTree (T : Type) where
  layers : List (List String)

/-- Rust `current_layer.chunks(2)`: consecutive non-overlapping slices
of length 2, with a final slice of length 1 when the length is odd. -/
def chunksTwo : List String → List (List String)
  | [] => []
  | [a] => [[a]]
  | a :: b :: rest => [a, b] :: chunksTwo rest

/-- The `match chunk` in the loop body of `MerkleTree::new`: a full
pair hashes left with right, a lone element hashes with itself, and
any other slice shape is the `unreachable` arm, modelled as `none`. -/
def combineChunk : List String → Option String
  | [left, right] => some (hash_pair left right)
  | [left] => some (hash_pair left left)
  | _ => none

/-- The loop body of `MerkleTree::new` with the chunking fused in:
builds `next_layer` from `current_layer`.  `pairUp_models_chunks`
below proves it agrees with mapping `combineChunk` over `chunksTwo`,
so the `unreachable` arm is indeed never taken. -/
def pairUp : List String → List String
  | [] => []
  | [x] => [hash_pair x x]
  | a :: b :: rest => hash_pair a b :: pairUp rest

/-- The `while layers.last().unwrap().len() > 1` loop of
`MerkleTree::new`, started from a first layer `l`: returns the whole
layer stack `[l, pairUp l, pairUp (pairUp l), ...]`, stopping as soon
as the most recent layer has length at most 1. -/
def buildLayers (l : List String) : List (List String) :=
  if _hl : 1 < l.length then l :: buildLayers (pairUp l) else [l]
termination_by l.length
decreasing_by
  have key : ∀ m : List String, 2 * (pairUp m).length ≤ m.length + 1 := by
    intro m
    induction m using pairUp.induct with
    | case1 => simp [pairUp]
    | case2 _ => simp [pairUp]
    | case3 a b rest ih => simp only [pairUp, List.length_cons]; omega
  have hk := key l
  omega

/-- `MerkleTree::new` from main.rs: reject empty input with the error
string, otherwise hash every item into the first layer and run the
reduction loop. -/
def MerkleTree.new {T : Type} [Hashable T] (data : List T) : Except String (MerkleTree T) :=
  if data.isEmpty then
    Except.error "Cannot create a Merkle Tree with no data."
  else
    Except.ok ⟨buildLayers (data.map Hashable.to_hash)⟩

/-- `MerkleTree::root` from main.rs:
`self.layers.last().unwrap().first().unwrap()`.  The two `unwrap`
calls are modelled by `Option`: the result is `some` exactly when the
layer stack and its last layer are non-empty. -/
def MerkleTree.root {T : Type} (t : MerkleTree T) : Option String :=
  t.layers.getLast?.bind List.head?

/-- Modelled from the spec: the `depth()` accessor of section 6
(`Tree.depth() -> integer` — number of layers) has no method of its
own in src/src/main.rs; the demonstration in `main` reads
`tree.layers.len()` directly (main.rs line 127).  Following the spec's
words, `depth` is the number of layers. -/
def MerkleTree.depth {T : Type} (t : MerkleTree T) : Nat :=
  t.layers.length

/-- A concrete three-leaf tree (the odd-count scenario of the tests),
used to check the theorems below on an explicit input. -/
def sampleTree : MerkleTree String :=
  ⟨buildLayers (List.map Hashable.to_hash ["a", "b", "c"])⟩

/-! ### Helper lemmas about the loop body -/

theorem layers_mk {T : Type} (ls : List (List String)) :
    (MerkleTree.mk ls : MerkleTree T).layers = ls :=
  rfl

theorem pairUp_length (l : List String) : (pairUp l).length = (l.length + 1) / 2 := by
  induction l using pairUp.induct with
  | case1 => simp [pairUp]
  | case2 _ => simp [pairUp]
  | case3 a b rest ih => simp only [pairUp, List.length_cons, ih]; omega

theorem pairUp_ne_nil {l : List String} (h : l ≠ []) : pairUp l ≠ [] := by
  match l with
  | [] => exact absurd rfl h
  | [x] => simp [pairUp]
  | a :: b :: rest => simp [pairUp]

theorem pairUp_mem {l : List String} {y : String} (hy : y ∈ pairUp l) :
    ∃ u v, u ∈ l ∧ v ∈ l ∧ y = hash_pair u v := by
  induction l using pairUp.induct with
  | case1 => simp [pairUp] at hy
  | case2 x =>
      simp only [pairUp, List.mem_singleton] at hy
      exact ⟨x, x, by simp, by simp, hy⟩
  | case3 a b rest ih =>
      simp only [pairUp, List.mem_cons] at hy
      rcases hy with hy | hy
      · exact ⟨a, b, by simp, by simp, hy⟩
      · obtain ⟨u, v, hu, hv, rfl⟩ := ih hy
        exact ⟨u, v, by simp [hu], by simp [hv], rfl⟩

theorem pairUp_getLast_odd {l : List String} (hodd : l.length % 2 = 1) {x : String}
    (hx : l.getLast? = some x) : (pairUp l).getLast? = some (hash_pair x x) := by
  induction l using pairUp.induct with
  | case1 => simp at hodd
  | case2 z =>
      simp only [List.getLast?_singleton, Option.some.injEq] at hx
      subst hx
      simp [pairUp]
  | case3 a b rest ih =>
      cases rest with
      | nil => simp at hodd
      | cons c cs =>
          have hodd2 : (c :: cs).length % 2 = 1 := by
            simp only [List.length_cons] at hodd ⊢; omega
          have hx2 : (c :: cs).getLast? = some x := by
            rw [List.getLast?_cons_cons, List.getLast?_cons_cons] at hx
            exact hx
          have hrec := ih hodd2 hx2
          cases hpr : pairUp (c :: cs) with
          | nil => exact absurd hpr (pairUp_ne_nil (by simp))
          | cons p ps =>
              rw [hpr] at hrec
              simp only [pairUp, List.getLast?_cons_cons, hpr]
              exact hrec

theorem pairUp_models_chunks (l : List String) :
    (chunksTwo l).mapM combineChunk = some (pairUp l) := by
  induction l using chunksTwo.induct with
  | case1 => rfl
  | case2 a => rfl
  | case3 a b rest ih =>
      simp only [chunksTwo, pairUp, List.mapM_cons, ih]
      rfl

theorem chunksTwo_mem_length {l c : List String} (hc : c ∈ chunksTwo l) :
    c.length = 1 ∨ c.length = 2 := by
  induction l using chunksTwo.induct with
  | case1 => simp [chunksTwo] at hc
  | case2 a =>
      simp only [chunksTwo, List.mem_singleton] at hc
      subst hc; left; rfl
  | case3 a b rest ih =>
      simp only [chunksTwo, List.mem_cons] at hc
      rcases hc with rfl | hc
      · right; rfl
      · exact ih hc

/-! ### Helper lemmas about the reduction loop -/

theorem buildLayers_of_short {l : List String} (h : ¬ 1 < l.length) :
    buildLayers l = [l] := by
  unfold buildLayers
  simp [h]

theorem buildLayers_of_long {l : List String} (h : 1 < l.length) :
    buildLayers l = l :: buildLayers (pairUp l) := by
  conv_lhs => unfold buildLayers
  simp [h]

theorem buildLayers_ne_nil (l : List String) : buildLayers l ≠ [] := by
  by_cases h : 1 < l.length
  · rw [buildLayers_of_long h]; simp
  · rw [buildLayers_of_short h]; simp

theorem buildLayers_zeroth (l : List String) : (buildLayers l)[0]? = some l := by
  by_cases h : 1 < l.length
  · rw [buildLayers_of_long h]; simp
  · rw [buildLayers_of_short h]; simp

theorem buildLayers_getLast {l : List String} (h : l ≠ []) :
    ∃ r, (buildLayers l).getLast? = some [r] := by
  induction l using buildLayers.induct with
  | case2 l hshort =>
      rw [buildLayers_of_short hshort]
      match l, h with
      | [a], _ => exact ⟨a, rfl⟩
      | a :: b :: l, _ =>
          simp only [List.length_cons] at hshort
          omega
  | case1 l hl ih =>
      rw [buildLayers_of_long hl]
      obtain ⟨r, hr⟩ := ih (pairUp_ne_nil h)
      cases hb : buildLayers (pairUp l) with
      | nil => exact absurd hb (buildLayers_ne_nil _)
      | cons p ps =>
          rw [hb] at hr
          exact ⟨r, by rw [List.getLast?_cons_cons]; exact hr⟩

theorem buildLayers_chain (l : List String) :
    ∀ i a, (buildLayers l)[i]? = some a → i + 1 < (buildLayers l).length →
      (buildLayers l)[i + 1]? = some (pairUp a) := by
  induction l using buildLayers.induct with
  | case2 l hshort =>
      intro i a _ hlen
      rw [buildLayers_of_short hshort] at hlen
      simp at hlen
  | case1 l hl ih =>
      intro i a ha hlen
      rw [buildLayers_of_long hl] at ha hlen ⊢
      cases i with
      | zero =>
          simp only [List.getElem?_cons_zero, Option.some.injEq] at ha
          subst ha
          simpa using buildLayers_zeroth (pairUp l)
      | succ j =>
          simp only [List.getElem?_cons_succ] at ha ⊢
          simp only [List.length_cons] at hlen
          exact ih j a ha (by omega)

theorem buildLayers_middle_long (l : List String) :
    ∀ i a, i + 1 < (buildLayers l).length → (buildLayers l)[i]? = some a →
      1 < a.length := by
  induction l using buildLayers.induct with
  | case2 l hshort =>
      intro i a hlen _
      rw [buildLayers_of_short hshort] at hlen
      simp at hlen
  | case1 l hl ih =>
      intro i a hlen ha
      rw [buildLayers_of_long hl] at hlen ha
      cases i with
      | zero =>
          simp only [List.getElem?_cons_zero, Option.some.injEq] at ha
          subst ha
          exact hl
      | succ j =>
          simp only [List.length_cons] at hlen
          simp only [List.getElem?_cons_succ] at ha
          exact ih j a (by omega) ha

theorem buildLayers_mem_ne_nil {l : List String} (h : l ≠ []) :
    ∀ a ∈ buildLayers l, a ≠ [] := by
  induction l using buildLayers.induct with
  | case2 l hshort =>
      intro a ha
      rw [buildLayers_of_short hshort] at ha
      simp only [List.mem_singleton] at ha
      subst ha; exact h
  | case1 l hl ih =>
      intro a ha
      rw [buildLayers_of_long hl] at ha
      rcases List.mem_cons.mp ha with rfl | ha
      · exact h
      · exact ih (pairUp_ne_nil h) a ha

theorem buildLayers_length_of_one {l : List String} (h : l.length = 1) :
    (buildLayers l).length = 1 := by
  rw [buildLayers_of_short (by omega)]
  rfl

theorem buildLayers_length_clog :
    ∀ n, 2 ≤ n → ∀ l : List String, l.length = n →
      (buildLayers l).length = 1 + Nat.clog 2 n := by
  intro n
  induction n using Nat.strong_induction_on with
  | _ n ih =>
      intro h2 l hln
      have hclog : Nat.clog 2 n = Nat.clog 2 ((n + 1) / 2) + 1 := by
        have := Nat.clog_of_two_le (b := 2) (n := n) (by norm_num) h2
        simpa using this
      rw [buildLayers_of_long (by omega)]
      have hpl : (pairUp l).length = (n + 1) / 2 := by
        rw [pairUp_length, hln]
      by_cases hsmall : (n + 1) / 2 = 1
      · have hb : (buildLayers (pairUp l)).length = 1 :=
          buildLayers_length_of_one (by rw [hpl, hsmall])
        rw [List.length_cons, hb, hclog, hsmall, Nat.clog_one_right]
      · have hge : 2 ≤ (n + 1) / 2 := by omega
        have hlt : (n + 1) / 2 < n := by omega
        have hb := ih ((n + 1) / 2) hlt hge (pairUp l) hpl
        rw [List.length_cons, hb, hclog]
        omega

/-! ### Helper lemmas about the constructor -/

theorem new_ok {T : Type} [Hashable T] {data : List T} (h : data ≠ []) :
    MerkleTree.new data = Except.ok ⟨buildLayers (data.map Hashable.to_hash)⟩ := by
  simp [MerkleTree.new, h]

theorem new_ok_elim {T : Type} [Hashable T] {data : List T} {t : MerkleTree T}
    (h : data ≠ []) (hok : MerkleTree.new data = Except.ok t) :
    t = ⟨buildLayers (data.map Hashable.to_hash)⟩ := by
  rw [new_ok h] at hok
  injection hok with h1
  exact h1.symm

theorem map_to_hash_ne_nil {T : Type} [Hashable T] {data : List T} (h : data ≠ []) :
    data.map Hashable.to_hash ≠ [] := by
  simpa using h

theorem strBytes_append (a b : String) :
    strBytes (a ++ b) = strBytes a ++ strBytes b := by
  simp [strBytes, String.data_append]

/-! ### The claims -/

/-- C1: for every non-empty input, the tree built by `MerkleTree.new`
has at least one layer; layer 0 has one entry per input item; every
layer `i+1` has `ceil(layers[i].len()/2)` entries; the final layer has
exactly one entry; and construction stops exactly when a layer of
length 1 is produced (every non-final layer has more than one entry). -/
theorem layer_invariants {T : Type} [Hashable T] (data : List T) (t : MerkleTree T)
    (hne : data ≠ []) (hok : MerkleTree.new data = Except.ok t) :
    t.layers ≠ [] ∧
    (∃ l0, t.layers[0]? = some l0 ∧ l0.length = data.length) ∧
    (∀ i a b, t.layers[i]? = some a → t.layers[i + 1]? = some b →
      b.length = (a.length + 1) / 2) ∧
    (∃ top, t.layers.getLast? = some top ∧ top.length = 1) ∧
    (∀ i a, i + 1 < t.layers.length → t.layers[i]? = some a → 1 < a.length) := by
  obtain rfl := new_ok_elim hne hok
  simp only [layers_mk]
  refine ⟨buildLayers_ne_nil _, ⟨_, buildLayers_zeroth _, by simp⟩, ?_, ?_, ?_⟩
  · intro i a b ha hb
    have hlen : i + 1 < (buildLayers (data.map Hashable.to_hash)).length :=
      (List.getElem?_eq_some.mp hb).1
    have hchain := buildLayers_chain _ i a ha hlen
    rw [hchain] at hb
    injection hb with hb
    rw [← hb, pairUp_length]
  · obtain ⟨r, hr⟩ := buildLayers_getLast (map_to_hash_ne_nil hne)
    exact ⟨[r], hr, rfl⟩
  · exact fun i a h1 h2 => buildLayers_middle_long _ i a h1 h2

/-- C1 witness: the invariants hold for the concrete three-item input
`["a", "b", "c"]`. -/
theorem layer_invariants_witness :
    sampleTree.layers ≠ [] ∧
    (∃ l0, sampleTree.layers[0]? = some l0 ∧ l0.length = 3) ∧
    (∀ i a b, sampleTree.layers[i]? = some a → sampleTree.layers[i + 1]? = some b →
      b.length = (a.length + 1) / 2) ∧
    (∃ top, sampleTree.layers.getLast? = some top ∧ top.length = 1) ∧
    (∀ i a, i + 1 < sampleTree.layers.length → sampleTree.layers[i]? = some a →
      1 < a.length) :=
  layer_invariants ["a", "b", "c"] sampleTree (by simp) rfl

/-- C2 counterexample: on empty input the code's error string is
"Cannot create a Merkle Tree with no data.", which is not the string
"cannot build a tree with no data" stated by the claim. -/
theorem empty_error_message_counterexample :
    MerkleTree.new ([] : List String) =
      Except.error "Cannot create a Merkle Tree with no data." ∧
    "Cannot create a Merkle Tree with no data." ≠ "cannot build a tree with no data" :=
  ⟨rfl, by decide⟩

/-- C2 (amended): `MerkleTree.new` fails exactly on empty input, the
failure produces no tree, and the error carries the message
"Cannot create a Merkle Tree with no data.".  The error is raised by
the guard before any hashing: it holds for every item type and every
`to_hash` implementation. -/
theorem new_fails_iff_empty (T : Type) [Hashable T] :
    (∀ data : List T, (∃ e, MerkleTree.new data = Except.error e) ↔ data = []) ∧
    MerkleTree.new ([] : List T) =
      Except.error "Cannot create a Merkle Tree with no data." := by
  constructor
  · intro data
    constructor
    · rintro ⟨e, he⟩
      by_contra hne
      rw [new_ok hne] at he
      exact Except.noConfusion he
    · rintro rfl
      exact ⟨_, rfl⟩
  · rfl

/-- C3: the number of layers is `1 + ceil(log2 n)` for `n > 1` input
items and `1` for a single item. -/
theorem layer_count {T : Type} [Hashable T] (data : List T) (t : MerkleTree T)
    (hne : data ≠ []) (hok : MerkleTree.new data = Except.ok t) :
    t.layers.length = if data.length = 1 then 1 else 1 + Nat.clog 2 data.length := by
  obtain rfl := new_ok_elim hne hok
  simp only [layers_mk]
  have hlen : (data.map Hashable.to_hash).length = data.length := by simp
  by_cases h1 : data.length = 1
  · rw [if_pos h1]
    exact buildLayers_length_of_one (by rw [hlen, h1])
  · rw [if_neg h1]
    have h0 : data.length ≠ 0 := fun h0 => hne (List.length_eq_zero.mp h0)
    exact buildLayers_length_clog data.length (by omega) _ hlen

/-- C3 witness: three items give `1 + ceil(log2 3) = 3` layers. -/
theorem layer_count_witness :
    sampleTree.layers.length = if (3 : Nat) = 1 then 1 else 1 + Nat.clog 2 3 :=
  layer_count ["a", "b", "c"] sampleTree (by simp) rfl

/-- C4: in the built tree each layer `i+1` is `pairUp` of layer `i`;
under `pairUp` an odd-length layer's final unpaired element `x`
contributes `hash_pair x x` as the last entry of the next layer; full
pairs contribute `hash_pair left right` in left-to-right order; and
every entry of a derived layer is a pairing hash of elements of the
layer below (nothing is promoted unhashed). -/
theorem odd_duplication {T : Type} [Hashable T] (data : List T) (t : MerkleTree T)
    (hne : data ≠ []) (hok : MerkleTree.new data = Except.ok t) :
    (∀ i a b, t.layers[i]? = some a → t.layers[i + 1]? = some b → b = pairUp a) ∧
    (∀ l : List String, l.length % 2 = 1 → ∀ x, l.getLast? = some x →
      (pairUp l).getLast? = some (hash_pair x x)) ∧
    (∀ (a b : String) (rest : List String),
      pairUp (a :: b :: rest) = hash_pair a b :: pairUp rest) ∧
    (∀ (l : List String) (y : String), y ∈ pairUp l →
      ∃ u v, u ∈ l ∧ v ∈ l ∧ y = hash_pair u v) := by
  obtain rfl := new_ok_elim hne hok
  simp only [layers_mk]
  refine ⟨?_, ?_, ?_, ?_⟩
  · intro i a b ha hb
    have hlen : i + 1 < (buildLayers (data.map Hashable.to_hash)).length :=
      (List.getElem?_eq_some.mp hb).1
    have hchain := buildLayers_chain _ i a ha hlen
    rw [hchain] at hb
    injection hb with hb
    exact hb.symm
  · exact fun l hodd x hx => pairUp_getLast_odd hodd hx
  · exact fun a b rest => rfl
  · exact fun l y hy => pairUp_mem hy

/-- C4 witness: the pairing rules checked through the concrete
three-item tree. -/
theorem odd_duplication_witness :
    (∀ i a b, sampleTree.layers[i]? = some a → sampleTree.layers[i + 1]? = some b →
      b = pairUp a) ∧
    (∀ l : List String, l.length % 2 = 1 → ∀ x, l.getLast? = some x →
      (pairUp l).getLast? = some (hash_pair x x)) ∧
    (∀ (a b : String) (rest : List String),
      pairUp (a :: b :: rest) = hash_pair a b :: pairUp rest) ∧
    (∀ (l : List String) (y : String), y ∈ pairUp l →
      ∃ u v, u ∈ l ∧ v ∈ l ∧ y = hash_pair u v) :=
  odd_duplication ["a", "b", "c"] sampleTree (by simp) rfl

/-- C5: `hash_pair a b` is the byte hash of the byte concatenation of
`a` followed by `b` (no separator, no sorting), and `hash_pair` is not
commutative: on the concrete fingerprints "a", "b" the two orders
give different results. -/
theorem hash_pair_concat_order :
    (∀ a b : String,
      hash_pair a b = bytesToHex (sha256Bytes (strBytes a ++ strBytes b))) ∧
    hash_pair "a" "b" ≠ hash_pair "b" "a" := by
  constructor
  · intro a b
    rw [hash_pair, hash_data, strBytes_append]
  · decide

/-- C6: a single-item input yields exactly one layer whose only entry
is `to_hash` of the item: the root is the leaf hash itself, with no
pairing hash applied (the reduction loop runs zero iterations). -/
theorem single_item {T : Type} [Hashable T] (x : T) :
    MerkleTree.new [x] = Except.ok ⟨[[Hashable.to_hash x]]⟩ ∧
    (MerkleTree.mk [[Hashable.to_hash x]] : MerkleTree T).root =
      some (Hashable.to_hash x) ∧
    (MerkleTree.mk [[Hashable.to_hash x]] : MerkleTree T).depth = 1 := by
  refine ⟨?_, rfl, rfl⟩
  rw [new_ok (List.cons_ne_nil x [])]
  have hb : buildLayers ([x].map Hashable.to_hash) = [[Hashable.to_hash x]] := by
    rw [show ([x].map Hashable.to_hash) = [Hashable.to_hash x] from rfl,
       buildLayers_of_short (by simp)]
  rw [hb]

/-- C7: layer 0 of the built tree is exactly `to_hash` mapped over the
input: same length, i-th entry the hash of the i-th item, in order. -/
theorem leaf_fidelity {T : Type} [Hashable T] (data : List T) (t : MerkleTree T)
    (hne : data ≠ []) (hok : MerkleTree.new data = Except.ok t) :
    ∃ l0, t.layers[0]? = some l0 ∧ l0 = data.map Hashable.to_hash ∧
      l0.length = data.length ∧
      ∀ i : Nat, l0[i]? = (data[i]?).map (@Hashable.to_hash T _) := by
  obtain rfl := new_ok_elim hne hok
  simp only [layers_mk]
  exact ⟨_, buildLayers_zeroth _, rfl, by simp, fun i => List.getElem?_map _ _ _⟩

/-- C7 witness: the leaf layer of the concrete three-item tree. -/
theorem leaf_fidelity_witness :
    ∃ l0, sampleTree.layers[0]? = some l0 ∧
      l0 = (["a", "b", "c"] : List String).map Hashable.to_hash ∧
      l0.length = (["a", "b", "c"] : List String).length ∧
      ∀ i : Nat, l0[i]? = ((["a", "b", "c"] : List String)[i]?).map (@Hashable.to_hash String _) :=
  leaf_fidelity ["a", "b", "c"] sampleTree (by simp) rfl

/-- C8: on every built tree `root` returns the sole fingerprint of the
final layer and `depth` returns the number of layers. -/
theorem root_depth_accessors {T : Type} [Hashable T] (data : List T) (t : MerkleTree T)
    (hne : data ≠ []) (hok : MerkleTree.new data = Except.ok t) :
    (∃ r, t.layers.getLast? = some [r] ∧ t.root = some r) ∧
    t.depth = t.layers.length := by
  obtain rfl := new_ok_elim hne hok
  refine ⟨?_, rfl⟩
  obtain ⟨r, hr⟩ := buildLayers_getLast (map_to_hash_ne_nil hne)
  refine ⟨r, by simpa [layers_mk] using hr, ?_⟩
  rw [MerkleTree.root, layers_mk, hr]
  rfl

/-- C8 witness: root and depth of the concrete three-item tree. -/
theorem root_depth_accessors_witness :
    (∃ r, sampleTree.layers.getLast? = some [r] ∧ sampleTree.root = some r) ∧
    sampleTree.depth = sampleTree.layers.length :=
  root_depth_accessors ["a", "b", "c"] sampleTree (by simp) rfl

/-- C9: one reduction step sends a layer of length `n > 1` to a layer
of length `ceil(n/2) < n`, so the loop's top-layer length strictly
decreases, and from any non-empty first layer the loop ends with a
layer of length exactly 1. -/
theorem reduction_decreases (l : List String) (h : 1 < l.length) :
    ((pairUp l).length = (l.length + 1) / 2 ∧ (pairUp l).length < l.length) ∧
    (∀ m : List String, m ≠ [] →
      ∃ top, (buildLayers m).getLast? = some top ∧ top.length = 1) := by
  refine ⟨⟨pairUp_length l, ?_⟩, ?_⟩
  · rw [pairUp_length]; omega
  · intro m hm
    obtain ⟨r, hr⟩ := buildLayers_getLast hm
    exact ⟨[r], hr, rfl⟩

/-- C9 witness: the step on a concrete layer of length 3. -/
theorem reduction_decreases_witness :
    ((pairUp ["x", "y", "z"]).length = ((["x", "y", "z"] : List String).length + 1) / 2 ∧
      (pairUp ["x", "y", "z"]).length < (["x", "y", "z"] : List String).length) ∧
    (∀ m : List String, m ≠ [] →
      ∃ top, (buildLayers m).getLast? = some top ∧ top.length = 1) :=
  reduction_decreases ["x", "y", "z"] (by simp)

/-- C10: in every built tree the layer stack and each layer are
non-empty, so `root`'s two unwraps (and the loop's `layers.last()`
unwraps) succeed; and `chunks(2)` yields only slices of length 1 or 2,
on which the chunk match never reaches the `unreachable` arm (mapping
`combineChunk` over the chunks is total and agrees with `pairUp`). -/
theorem no_partial_failures {T : Type} [Hashable T] (data : List T) (t : MerkleTree T)
    (hne : data ≠ []) (hok : MerkleTree.new data = Except.ok t) :
    t.layers ≠ [] ∧
    (∀ a ∈ t.layers, a ≠ []) ∧
    (∃ r, t.root = some r) ∧
    (∀ l : List String, (chunksTwo l).mapM combineChunk = some (pairUp l)) ∧
    (∀ l c : List String, c ∈ chunksTwo l → c.length = 1 ∨ c.length = 2) := by
  obtain rfl := new_ok_elim hne hok
  simp only [layers_mk]
  refine ⟨buildLayers_ne_nil _, buildLayers_mem_ne_nil (map_to_hash_ne_nil hne), ?_,
    fun l => pairUp_models_chunks l, fun l c hc => chunksTwo_mem_length hc⟩
  obtain ⟨r, hr⟩ := buildLayers_getLast (map_to_hash_ne_nil hne)
  refine ⟨r, ?_⟩
  rw [MerkleTree.root, layers_mk, hr]
  rfl

/-- C10 witness: the safety facts on the concrete three-item tree. -/
theorem no_partial_failures_witness :
    sampleTree.layers ≠ [] ∧
    (∀ a ∈ sampleTree.layers, a ≠ []) ∧
    (∃ r, sampleTree.root = some r) ∧
    (∀ l : List String, (chunksTwo l).mapM combineChunk = some (pairUp l)) ∧
    (∀ l c : List String, c ∈ chunksTwo l → c.length = 1 ∨ c.length = 2) :=
  no_partial_failures ["a", "b", "c"] sampleTree (by simp) rfl

end Merkle
